import Mathlib

/-!
Shallow embedding of the hashing subsystem of the ByConity columnar engine
(`Functions/FunctionsHashing.h`-style header in the sources): hash-algorithm
policies, the type-directed vectorized traversal of `FunctionAnyHash`, the
fixed-digest string driver, and the URL-aware hashers.

Machine integers are modelled as `Nat` bit patterns reduced modulo `2 ^ w`
at the points where the C++ code truncates.  Byte buffers are `List Nat`
with every entry below 256 on well-formed inputs, little-endian for the
in-memory representation of fixed-width values (the engine targets
little-endian CPUs).  Fallible code returns `Except HErr`.

External black-box primitives (`intHash32<salt>` / `intHash64` from
`Common/HashTable/Hash.h`, `CityHash64` and the other byte-level
algorithms) are not part of the source excerpt and are modelled as
parameters; every theorem about code built on top of them holds for all
instantiations of those parameters.
-/

/-- Error taxonomy of the hashing code: the `ErrorCodes` members thrown by
the functions modelled here. -/
inductive HErr where
  | notImplemented
  | badArguments
  | illegalColumn
  | logicalError
deriving DecidableEq, Repr

/-- Little-endian byte representation of the low `w` bytes of a value
(`reinterpret_cast<const char *>(&v), sizeof(v)` on a little-endian CPU). -/
def leBytes : Nat → Nat → List Nat
  | 0, _ => []
  | w + 1, v => (v % 256) :: leBytes w (v / 256)

/-- Contiguous byte run of length `len` starting at index `start`. -/
def byteSlice (l : List Nat) (start len : Nat) : List Nat :=
  (l.drop start).take len

/-- Concatenation of `k` copies of a list (replication of a buffer). -/
def joinReplicate (k : Nat) (l : List Nat) : List Nat :=
  (List.replicate k l).flatten

/-- External integer-hash primitives consumed by the source: `intHash32`
is salt-parameterised (the salt template argument), `intHash64` is the
plain 64-bit finalizer.  Both are black boxes outside the excerpt. -/
structure ExtHash where
  intHash32Base : Nat → Nat → Nat
  intHash64Base : Nat → Nat

/-- IntHash32Impl::apply: `intHash32<0x75D9543DE018BF45ULL>(x)`, producing a
32-bit digest. -/
def IntHash32Impl.apply (E : ExtHash) (x : Nat) : Nat :=
  E.intHash32Base 0x75D9543DE018BF45 (x % 2 ^ 64) % 2 ^ 32

/-- IntHash64Impl::apply: `intHash64(x ^ 0x4CF2D2BAAE6DA887ULL)`. -/
def IntHash64Impl.apply (E : ExtHash) (x : Nat) : Nat :=
  E.intHash64Base ((x % 2 ^ 64) ^^^ 0x4CF2D2BAAE6DA887) % 2 ^ 64

/-- Sign extension of one byte to a 32-bit pattern:
`static_cast<UInt32>(static_cast<Int8>(b))`. -/
def signExt8 (b : Nat) : Nat :=
  if b % 256 < 128 then b % 256 else 2 ^ 32 - 256 + b % 256

/-- JavaHashImpl::apply: `h = 31 * h + (Int8)data[i]` over the bytes, in
32-bit arithmetic (the Java `String.hashCode` recurrence). -/
def JavaHashImpl.apply (data : List Nat) : Nat :=
  data.foldl (fun h b => (31 * h + signExt8 b) % 2 ^ 32) 0

/-- HiveHashImpl::apply: JavaHash with the sign bit zeroed out,
`0x7FFFFFFF & (UInt32)JavaHashImpl::apply(...)`. -/
def HiveHashImpl.apply (data : List Nat) : Nat :=
  0x7FFFFFFF &&& JavaHashImpl.apply data

/-- Little-endian 16-bit code units of a byte buffer:
`(UInt8)data[i] | (UInt8)data[i+1] << 8` taken two bytes at a time
(a dangling odd byte is never reached, the caller checks evenness). -/
def utf16leUnits : List Nat → List Nat
  | b0 :: b1 :: rest => ((b0 % 256) ||| ((b1 % 256) <<< 8)) :: utf16leUnits rest
  | _ => []

/-- Java `String.hashCode` recurrence over already-decoded 16-bit code
units, in 32-bit arithmetic. -/
def javaHashOfUnits (units : List Nat) : Nat :=
  units.foldl (fun h u => (31 * h + u) % 2 ^ 32) 0

/-- JavaHashUTF16LEImpl::apply: strips a leading UTF-16LE byte-order mark
(bytes `0xFF 0xFE`), rejects buffers of odd remaining length with
`BAD_ARGUMENTS`, and otherwise hashes the little-endian code units. -/
def JavaHashUTF16LEImpl.apply (rawData : List Nat) : Except HErr Nat :=
  let data := match rawData with
    | 255 :: 254 :: rest => rest
    | other => other
  if data.length % 2 ≠ 0 then .error .badArguments
  else .ok (javaHashOfUnits (utf16leUnits data))

/-! URL-aware hashing.  `CityHash64` is an external primitive; the URL
hashers are parameterised by it (`city` below). -/

/-- Trailing characters stripped by the URL hash. -/
def isSep (b : Nat) : Bool :=
  b = 47 ∨ b = 63 ∨ b = 35

/-- URLHashImpl::apply: hash the buffer, not taking a single trailing
`/`, `?` or `#` character into account. -/
def URLHashImpl.apply (city : List Nat → Nat) (data : List Nat) : Nat :=
  if 0 < data.length ∧ isSep (data.getLastD 0) then city data.dropLast
  else city data

/-- Scheme characters accepted while parsing the protocol: the source
compares `char`s with strict inequalities `> 'a' && < 'z'` resp.
`> '0' && < '9'`, on signed chars (bytes ≥ 128 are negative and fail). -/
def isSchemeChar (b : Nat) : Bool :=
  let s : Int := if b % 256 < 128 then (b % 256 : Int) else (b % 256 : Int) - 256
  (97 < s ∧ s < 122) ∨ (48 < s ∧ s < 57)

/-- Recognizable scheme/double-slash form: a non-empty scheme-character
run at the start, then `:`, `/`, `/`, with at least one character after
the two slashes (the chain of checks guarding the hierarchy walk). -/
def hasSchemeForm (s : List Nat) : Bool :=
  let p := (s.takeWhile isSchemeChar).length
  ¬(p = 0 ∨ p = s.length) ∧
    s.getD p 0 = 58 ∧ s.getD (p + 1) 0 = 47 ∧ s.getD (p + 2) 0 = 47 ∧
    p + 3 < s.length

/-- The hierarchy walk of URLHierarchyHashImpl::findLevelLength.  The
source loop runs `while (current_level != level && pos < end)` with
`current_level` advancing by one each iteration, so it performs exactly
`level - current_level` further iterations; `remaining` is that count
(the loop counter run downwards), `pos` the absolute position reached and
`rem` the unprocessed suffix.  Each iteration skips leading separators,
returns `0` when the input is exhausted before the level is reached,
walks one path segment, and steps over its closing separator when
present.  When `remaining` hits zero the covered prefix length `pos` is
returned. -/
def levelWalk : Nat → Nat → List Nat → Nat
  | 0, pos, _ => pos
  | remaining + 1, pos, rem =>
      match rem.drop (rem.takeWhile isSep).length with
      | [] => 0
      | b :: rest =>
        let m := ((b :: rest).takeWhile (fun x => !isSep x)).length
        levelWalk remaining
          (pos + (rem.takeWhile isSep).length + m +
            (if (b :: rest).drop m = [] then 0 else 1))
          ((b :: rest).drop m).tail

/-- URLHierarchyHashImpl::findLevelLength: length of the prefix of the URL
that covers exactly `level` path segments; whole input at level `0` (and
`0` at other levels) when no scheme/double-slash form is recognizable. -/
def URLHierarchyHashImpl.findLevelLength (level : Nat) (s : List Nat) : Nat :=
  let p := (s.takeWhile isSchemeChar).length
  if hasSchemeForm s then
    let rest := s.drop (p + 3)
    let d := (rest.takeWhile (fun b => !isSep b)).length
    let pos1 := p + 3 + d + (if d < rest.length then 1 else 0)
    if level = 0 then pos1
    else levelWalk level pos1 (s.drop pos1)
  else if level = 0 then s.length else 0

/-- URLHierarchyHashImpl::apply: URL-hash the level prefix of the input. -/
def URLHierarchyHashImpl.apply (city : List Nat → Nat) (level : Nat)
    (s : List Nat) : Nat :=
  URLHashImpl.apply city (s.take (URLHierarchyHashImpl.findLevelLength level s))

/-! The generic variadic driver `FunctionAnyHash`. -/

/-- Hash Algorithm Policy: return width in bits (64 for `UInt64` return
types, 32 for `UInt32`/`Int32`), the byte-buffer `apply` (seed-taking for
the `WithSeed` variants, seed-ignoring otherwise; fallible for the
UTF-16LE Java hash), the digest `combineHashes` rule (fallible: the
Java/Hive family throws), and the `use_int_hash_for_pods` flag. -/
structure HashPolicy where
  retWidth : Nat
  applyH : List Nat → Nat → Except HErr Nat
  combine : Nat → Nat → Except HErr Nat
  useIntHash : Bool

/-- The `std::is_same_v<ToType, UInt64>` test used to pick between
IntHash64Impl and IntHash32Impl. -/
def HashPolicy.is64 (p : HashPolicy) : Bool :=
  p.retWidth == 64

/-- Logical type descriptors covered by the traversal: fixed-width
scalars routed through `executeIntType` (width in bytes), wide values
routed through `executeBigIntType`, strings, fixed strings, arrays and
tuples. -/
inductive Ty where
  | int (w : Nat)
  | big (w : Nat)
  | str
  | fstr (n : Nat)
  | arr (t : Ty)
  | tup (ts : List Ty)
deriving Repr

/-- Columnar value containers: dense fixed-width vectors (values as bit
patterns of `w` bytes), `ColumnString` (a flat character buffer plus
cumulative offsets, each row NUL-terminated so row `i` spans
`[offsets[i-1], offsets[i] - 1)`), `ColumnFixedString` (flat buffer of
`n`-byte rows), `ColumnArray` (cumulative element offsets plus a flat
nested column), `ColumnTuple` (one column per field), and `ColumnConst`
(`n` logical repetitions of the single row of the nested column). -/
inductive Col where
  | vec (w : Nat) (vals : List Nat)
  | strC (chars : List Nat) (offsets : List Nat)
  | fstrC (n : Nat) (chars : List Nat)
  | arrC (offsets : List Nat) (data : Col)
  | tupC (cols : List Col)
  | constC (n : Nat) (data : Col)
deriving Repr

/-- Row count of a column (`IColumn::size`). -/
def Col.rows : Col → Nat
  | .vec _ vals => vals.length
  | .strC _ offsets => offsets.length
  | .fstrC n chars => chars.length / n
  | .arrC offsets _ => offsets.length
  | .tupC cols => match cols with
    | [] => 0
    | c :: _ => c.rows
  | .constC n _ => n

/-- Offsets of `k` concatenated copies of a buffer of length `shift`
whose single-copy offsets are `offsets`. -/
def tileOffsets (k shift : Nat) (offsets : List Nat) : List Nat :=
  (List.range k).flatMap fun j => offsets.map (· + j * shift)

mutual
/-- Concatenation of `k` copies of a column.  `ColumnConst` stores a
one-row nested column, so `ColumnConst::convertToFullColumn` (replication
of that single row) coincides with whole-column tiling of the data. -/
def Col.tile (k : Nat) : Col → Col
  | .vec w vals => .vec w (joinReplicate k vals)
  | .strC chars offsets => .strC (joinReplicate k chars) (tileOffsets k chars.length offsets)
  | .fstrC n chars => .fstrC n (joinReplicate k chars)
  | .arrC offsets data => .arrC (tileOffsets k (offsets.getLastD 0) offsets) (Col.tile k data)
  | .tupC cols => .tupC (Col.tileAll k cols)
  | .constC n data => .constC (k * n) data

/-- Pointwise tiling of a tuple's field columns. -/
def Col.tileAll (k : Nat) : List Col → List Col
  | [] => []
  | c :: cs => Col.tile k c :: Col.tileAll k cs
end

/-- Array-column access for `executeArray`: a dense `ColumnArray` is used
directly; a constant array column is materialized to a full column first
(`convertToFullColumn`); anything else is an illegal column. -/
def arrParts : Col → Option (List Nat × Col)
  | .arrC offsets data => some (offsets, data)
  | .constC n (.arrC offsets data) =>
      some (tileOffsets n (offsets.getLastD 0) offsets, Col.tile n data)
  | _ => none

/-- Per-value hash of `executeIntType`: the fast-path integer hash on the
bit pattern when the policy requests it (64- or 32-bit by return type),
otherwise `apply` over the value's raw bytes. -/
def intTypeHash (E : ExtHash) (p : HashPolicy) (seed w v : Nat) : Except HErr Nat :=
  if p.useIntHash then
    if p.is64 then .ok (IntHash64Impl.apply E (v % 2 ^ 64))
    else .ok (IntHash32Impl.apply E (v % 2 ^ 32))
  else p.applyH (leBytes w v) seed

/-- Per-value hash of `executeBigIntType`: always raw bytes, never the
integer fast path. -/
def bigTypeHash (p : HashPolicy) (seed w v : Nat) : Except HErr Nat :=
  p.applyH (leBytes w v) seed

/-- Dense-column row loop shared by the scalar and fixed-string paths:
for each stored value compute its digest `h` and either assign it
(`first`) or fold it into the row accumulator with `combineHashes`; rows
beyond the value list are left untouched. -/
def hashVecRows {α : Type} (p : HashPolicy) (first : Bool)
    (hf : α → Except HErr Nat) : List α → List Nat → Except HErr (List Nat)
  | [], accs => .ok accs
  | _ :: _, [] => .ok []
  | v :: vs, acc :: accs => do
    let h ← hf v
    let x ← if first then pure h else p.combine acc h
    let rest ← hashVecRows p first hf vs accs
    .ok (x :: rest)

/-- Fold one fixed digest into every accumulator with `combineHashes`. -/
def combineAllRows (p : HashPolicy) (h : Nat) : List Nat → Except HErr (List Nat)
  | [] => .ok []
  | acc :: accs => do
    let x ← p.combine acc h
    let rest ← combineAllRows p h accs
    .ok (x :: rest)

/-- Constant-column branch shared by the scalar and string paths: the
single digest `h` is assigned to every row (`vec_to.assign`) or combined
into every row accumulator. -/
def hashConstRows (p : HashPolicy) (first : Bool) (h : Nat) :
    List Nat → Except HErr (List Nat)
  | accs =>
    if first then .ok (List.replicate accs.length h)
    else combineAllRows p h accs

/-- FunctionAnyHash::executeIntType: dense vector of matching width,
constant over such a vector, or an illegal column. -/
def executeIntType (E : ExtHash) (p : HashPolicy) (seed : Nat) (first : Bool)
    (w : Nat) (col : Col) (accs : List Nat) : Except HErr (List Nat) :=
  match col with
  | .vec w' vals =>
      if w' = w then hashVecRows p first (intTypeHash E p seed w) vals accs
      else .error .illegalColumn
  | .constC _ (.vec w' (v :: _)) =>
      if w' = w then do
        let h ← intTypeHash E p seed w v
        hashConstRows p first h accs
      else .error .illegalColumn
  | _ => .error .illegalColumn

/-- FunctionAnyHash::executeBigIntType: as `executeIntType` but always
hashing the raw bytes of the value. -/
def executeBigIntType (p : HashPolicy) (seed : Nat) (first : Bool)
    (w : Nat) (col : Col) (accs : List Nat) : Except HErr (List Nat) :=
  match col with
  | .vec w' vals =>
      if w' = w then hashVecRows p first (bigTypeHash p seed w) vals accs
      else .error .illegalColumn
  | .constC _ (.vec w' (v :: _)) =>
      if w' = w then do
        let h ← bigTypeHash p seed w v
        hashConstRows p first h accs
      else .error .illegalColumn
  | _ => .error .illegalColumn

/-- Offset walk of the dense `ColumnString` branch of
FunctionAnyHash::executeString: row `i` hashes the byte run
`[current_offset, offsets[i] - 1)`. -/
def strRows (p : HashPolicy) (seed : Nat) (first : Bool) (chars : List Nat) :
    Nat → List Nat → List Nat → Except HErr (List Nat)
  | _, [], accs => .ok accs
  | _, _ :: _, [] => .ok []
  | cur, off :: offs, acc :: accs => do
    let h ← p.applyH (byteSlice chars cur (off - cur - 1)) seed
    let x ← if first then pure h else p.combine acc h
    let rest ← strRows p seed first chars off offs accs
    .ok (x :: rest)

/-- The single-row value of a constant string or fixed-string column
(`ColumnConst::getValue<String>`). -/
def constStrValue : Col → Option (List Nat)
  | .strC chars (off :: nil') =>
      if nil' = ([] : List Nat) then some (byteSlice chars 0 (off - 1)) else none
  | .fstrC n chars => if chars.length = n then some chars else none
  | _ => none

/-- FunctionAnyHash::executeString: dense `ColumnString` via the offset
walk, dense `ColumnFixedString` via `n`-byte runs, constant
string/fixed-string hashed once and broadcast, else an illegal column. -/
def executeString (p : HashPolicy) (seed : Nat) (first : Bool)
    (col : Col) (accs : List Nat) : Except HErr (List Nat) :=
  match col with
  | .strC chars offsets => strRows p seed first chars 0 offsets accs
  | .fstrC n chars =>
      hashVecRows p first (fun bs => p.applyH bs seed)
        ((List.range (chars.length / n)).map fun i => byteSlice chars (i * n) n) accs
  | .constC _ inner =>
      match constStrValue inner with
      | some s => do
          let h ← p.applyH s seed
          hashConstRows p first h accs
      | none => .error .illegalColumn
  | _ => .error .illegalColumn

/-- Fold the digests of one row's array elements into the row
accumulator, in ascending element order. -/
def combineSeg (p : HashPolicy) : Nat → List Nat → Except HErr Nat
  | h, [] => .ok h
  | h, e :: es => do combineSeg p (← p.combine h e) es

/-- Per-row offset walk of FunctionAnyHash::executeArray: hash the
element count `offsets[i] - current_offset` with the fast-path integer
hash (64- or 32-bit by return type), assign or combine it, then fold in
the per-element digests `vec_temp[current_offset .. offsets[i])`. -/
def arrayRows (E : ExtHash) (p : HashPolicy) (first : Bool) (vecTemp : List Nat) :
    List Nat → Nat → List Nat → Except HErr (List Nat)
  | [], _, accs => .ok accs
  | _ :: _, _, [] => .ok []
  | off :: offs, cur, acc :: accs => do
    let lh := if p.is64 then IntHash64Impl.apply E (off - cur)
              else IntHash32Impl.apply E (off - cur)
    let x0 ← if first then pure lh else p.combine acc lh
    let x1 ← combineSeg p x0 (byteSlice vecTemp cur (off - cur))
    let rest ← arrayRows E p first vecTemp offs off accs
    .ok (x1 :: rest)

mutual
/-- FunctionAnyHash::executeAny: type-tag dispatch to the per-category
traversals.  Arrays first run a nested traversal of the whole flat
element column with "first" (assign) semantics into `vec_temp`, then do
the per-row offset walk; constant arrays are materialized beforehand
(inside `arrParts`).  Tuples traverse each field in declaration order,
passing the same `first` flag to every field. -/
def executeAny (E : ExtHash) (p : HashPolicy) (seed : Nat) (first : Bool) :
    Ty → Col → List Nat → Except HErr (List Nat)
  | .int w, col, accs => executeIntType E p seed first w col accs
  | .big w, col, accs => executeBigIntType p seed first w col accs
  | .str, col, accs => executeString p seed first col accs
  | .fstr _, col, accs => executeString p seed first col accs
  | .arr t, col, accs =>
      match arrParts col with
      | some (offs, data) => do
          let vecTemp ← executeAny E p seed true t data (List.replicate data.rows 0)
          arrayRows E p first vecTemp offs 0 accs
      | none => .error .illegalColumn
  | .tup ts, col, accs =>
      match col with
      | .tupC cols => executeTupleFields E p seed first ts cols accs
      | .constC n (.tupC cols) => executeTupleConst E p seed first n ts cols accs
      | _ => .error .illegalColumn

/-- Field loop of FunctionAnyHash::executeTuple over a dense
`ColumnTuple`: each field is traversed with the same `first` flag. -/
def executeTupleFields (E : ExtHash) (p : HashPolicy) (seed : Nat) (first : Bool) :
    List Ty → List Col → List Nat → Except HErr (List Nat)
  | [], _, accs => .ok accs
  | _ :: _, [], accs => .ok accs
  | t :: ts, c :: cs, accs => do
      executeTupleFields E p seed first ts cs (← executeAny E p seed first t c accs)

/-- Field loop of FunctionAnyHash::executeTuple over a constant tuple
column: each field is wrapped back into a constant of the same height. -/
def executeTupleConst (E : ExtHash) (p : HashPolicy) (seed : Nat) (first : Bool)
    (n : Nat) : List Ty → List Col → List Nat → Except HErr (List Nat)
  | [], _, accs => .ok accs
  | _ :: _, [], accs => .ok accs
  | t :: ts, c :: cs, accs => do
      executeTupleConst E p seed first n ts cs
        (← executeAny E p seed first t (.constC n c) accs)
end

mutual
/-- FunctionAnyHash::executeForArgument: flattening of tuples.  A
tuple-valued argument (dense or constant) is expanded into its fields in
declaration order, recursively; any other argument is traversed whole
with the current `is_first` flag.  The flag is lowered after the
argument. -/
def executeForArgument (E : ExtHash) (p : HashPolicy) (seed : Nat) :
    Ty → Col → List Nat → Bool → Except HErr (List Nat × Bool)
  | .tup ts, .tupC cols, accs, isFirst => do
      let r ← forArgumentFields E p seed ts cols accs isFirst
      .ok (r.1, false)
  | .tup ts, .constC n (.tupC cols), accs, isFirst => do
      let r ← forArgumentConstFields E p seed n ts cols accs isFirst
      .ok (r.1, false)
  | ty, col, accs, isFirst => do
      let r ← executeAny E p seed isFirst ty col accs
      .ok (r, false)

/-- Flattening loop over the fields of a dense tuple argument. -/
def forArgumentFields (E : ExtHash) (p : HashPolicy) (seed : Nat) :
    List Ty → List Col → List Nat → Bool → Except HErr (List Nat × Bool)
  | [], _, accs, isFirst => .ok (accs, isFirst)
  | _ :: _, [], accs, isFirst => .ok (accs, isFirst)
  | t :: ts, c :: cs, accs, isFirst => do
      let r ← executeForArgument E p seed t c accs isFirst
      forArgumentFields E p seed ts cs r.1 r.2

/-- Flattening loop over the fields of a constant tuple argument: each
field column is wrapped back into a constant of the argument's height. -/
def forArgumentConstFields (E : ExtHash) (p : HashPolicy) (seed : Nat) (n : Nat) :
    List Ty → List Col → List Nat → Bool → Except HErr (List Nat × Bool)
  | [], _, accs, isFirst => .ok (accs, isFirst)
  | _ :: _, [], accs, isFirst => .ok (accs, isFirst)
  | t :: ts, c :: cs, accs, isFirst => do
      let r ← executeForArgument E p seed t (.constC n c) accs isFirst
      forArgumentConstFields E p seed n ts cs r.1 r.2
end

/-- Argument loop of FunctionAnyHash::executeImpl, threading the row
accumulators and the `is_first_argument` flag left to right. -/
def runArguments (E : ExtHash) (p : HashPolicy) (seed : Nat) :
    List (Ty × Col) → List Nat → Bool → Except HErr (List Nat)
  | [], accs, _ => .ok accs
  | (ty, col) :: rest, accs, isFirst => do
      let r ← executeForArgument E p seed ty col accs isFirst
      runArguments E p seed rest r.1 r.2

/-- The reserved digest assigned to every row when the argument list is
empty: a constant random number from /dev/urandom, truncated to the
policy's return width by `static_cast<ToType>`. -/
def emptyArgsDigest (p : HashPolicy) : Nat :=
  0xe28dbde7fe22e41c % 2 ^ p.retWidth

/-- FunctionAnyHash::executeImpl: for the `with_seed` variants the
trailing argument must be a `ColumnConst`, read once as a `UInt32`
(a non-constant seed column is a `LOGICAL_ERROR`); with no remaining
arguments every row receives the reserved constant digest; otherwise the
arguments are folded left to right starting from assign semantics. -/
def executeImpl (E : ExtHash) (p : HashPolicy) (withSeed : Bool)
    (args : List (Ty × Col)) (rows : Nat) : Except HErr (List Nat) := do
  let seed ←
    if withSeed then
      match args.getLast? with
      | some (_, .constC _ (.vec _ (v :: _))) => Except.ok (v % 2 ^ 32)
      | _ => Except.error HErr.logicalError
    else Except.ok 0
  let size := args.length - (if withSeed then 1 else 0)
  if size = 0 then
    .ok (List.replicate rows (emptyArgsDigest p))
  else
    runArguments E p seed (args.take size) (List.replicate rows 0) true

/-! The Java-compatible policies, which refuse to combine. -/

/-- JavaHashImpl::combineHashes: unconditionally `NOT_IMPLEMENTED`. -/
def JavaHashImpl.combineHashes (_ _ : Nat) : Except HErr Nat :=
  .error .notImplemented

/-- JavaHashUTF16LEImpl::combineHashes: unconditionally `NOT_IMPLEMENTED`. -/
def JavaHashUTF16LEImpl.combineHashes (_ _ : Nat) : Except HErr Nat :=
  .error .notImplemented

/-- HiveHashImpl::combineHashes: unconditionally `NOT_IMPLEMENTED`. -/
def HiveHashImpl.combineHashes (_ _ : Nat) : Except HErr Nat :=
  .error .notImplemented

/-- The javaHash policy: `Int32` return (32-bit pattern), byte-buffer
apply, non-combinable, no integer fast path. -/
def JavaHashImpl.policy : HashPolicy :=
  { retWidth := 32
    applyH := fun bs _ => .ok (JavaHashImpl.apply bs)
    combine := JavaHashImpl.combineHashes
    useIntHash := false }

/-- The javaHashUTF16LE policy. -/
def JavaHashUTF16LEImpl.policy : HashPolicy :=
  { retWidth := 32
    applyH := fun bs _ => JavaHashUTF16LEImpl.apply bs
    combine := JavaHashUTF16LEImpl.combineHashes
    useIntHash := false }

/-- The hiveHash policy. -/
def HiveHashImpl.policy : HashPolicy :=
  { retWidth := 32
    applyH := fun bs _ => .ok (HiveHashImpl.apply bs)
    combine := HiveHashImpl.combineHashes
    useIntHash := false }

/-! `FunctionStringHashFixedString`, the fixed-digest driver. -/

/-- A fixed-digest algorithm: digest byte length and a byte-buffer apply
writing a digest of exactly that length (seed-taking for the `WithSeed`
variant). -/
structure FixedHashImpl where
  len : Nat
  applyF : List Nat → Nat → List Nat

/-- Offset walk of the `ColumnString` branch of
FunctionStringHashFixedString::executeImpl. -/
def fixedStrRows (F : FixedHashImpl) (seed : Nat) (chars : List Nat) :
    Nat → List Nat → List (List Nat)
  | _, [] => []
  | cur, off :: offs =>
      F.applyF (byteSlice chars cur (off - cur - 1)) seed
        :: fixedStrRows F seed chars off offs

/-- FunctionStringHashFixedString::executeImpl: for the `with_seed`
variant the trailing argument must be a `ColumnConst` read once as a
`UInt32` (else `LOGICAL_ERROR`); the first argument must be a string or
fixed-string column, hashed row by row to fixed-width digests. -/
def FunctionStringHashFixedString.executeImpl (F : FixedHashImpl)
    (withSeed : Bool) (args : List Col) : Except HErr (List (List Nat)) := do
  let seed ←
    if withSeed then
      match args.getLast? with
      | some (.constC _ (.vec _ (v :: _))) => Except.ok (v % 2 ^ 32)
      | _ => Except.error HErr.logicalError
    else Except.ok 0
  match args.head? with
  | some (.strC chars offsets) => .ok (fixedStrRows F seed chars 0 offsets)
  | some (.fstrC n chars) =>
      .ok ((List.range (chars.length / n)).map fun i =>
        F.applyF (byteSlice chars (i * n) n) seed)
  | _ => .error .illegalColumn

/-! Specification-side vocabulary used to state the claims. -/

/-- A policy whose `combineHashes` never fails, with `c` its pure
combination rule (every integer policy except the Java/Hive family). -/
def TotalCombine (p : HashPolicy) (c : Nat → Nat → Nat) : Prop :=
  ∀ a b, p.combine a b = .ok (c a b)

/-- The fast-path hash applied to an array's element count: 64-bit when
the policy returns 64 bits, 32-bit otherwise. -/
def lengthHash (E : ExtHash) (p : HashPolicy) (n : Nat) : Nat :=
  if p.is64 then IntHash64Impl.apply E n else IntHash32Impl.apply E n

/-- The per-row digest the spec ascribes to an array row: hash the
element count, assign or combine it into the accumulator, then fold the
per-element digests in ascending index order. -/
def arrayRowDigest (E : ExtHash) (p : HashPolicy) (c : Nat → Nat → Nat)
    (first : Bool) (acc : Nat) (s : List Nat) : Nat :=
  s.foldl c
    (if first then lengthHash E p s.length else c acc (lengthHash E p s.length))

/-- Cumulative end offsets of consecutive segments starting at `base`. -/
def segOffsets (base : Nat) : List (List Nat) → List Nat
  | [] => []
  | s :: ss => (base + s.length) :: segOffsets (base + s.length) ss

/-- The flat character buffer of a `ColumnString` holding the given
rows: each row followed by its NUL terminator. -/
def strJoin : List (List Nat) → List Nat
  | [] => []
  | s :: ss => s ++ 0 :: strJoin ss

/-- The cumulative offsets of a `ColumnString` holding the given rows. -/
def strOffs (base : Nat) : List (List Nat) → List Nat
  | [] => []
  | s :: ss => (base + (s.length + 1)) :: strOffs (base + (s.length + 1)) ss

/-- The `ColumnString` storing the given list of row values. -/
def strColOfList (ss : List (List Nat)) : Col :=
  .strC (strJoin ss) (strOffs 0 ss)

/-! Concrete fixtures used by the witness theorems: a tiny instantiation
of the external primitives and a total-combine 64-bit policy. -/

/-- A concrete instantiation of the external integer-hash primitives. -/
def witE : ExtHash :=
  { intHash32Base := fun s x => (s + x) % 2 ^ 32
    intHash64Base := fun x => x }

/-- A concrete 64-bit-return policy with total apply and combine. -/
def witP : HashPolicy :=
  { retWidth := 64
    applyH := fun bs sd => .ok (bs.foldl (fun a b => 2 * a + b) (sd + 1))
    combine := fun a b => .ok (a + 2 * b)
    useIntHash := false }

/-- The pure combination rule of `witP`. -/
def witC : Nat → Nat → Nat := fun a b => a + 2 * b

/-- A concrete byte hash standing in for CityHash64 in witnesses. -/
def witCity : List Nat → Nat := fun bs => bs.foldl (fun a b => 3 * a + b) 5

/-- The argument loop of executeImpl, keeping the `is_first_argument`
flag in the result (proof-side view of `runArguments`). -/
def runArgumentsP (E : ExtHash) (p : HashPolicy) (seed : Nat) :
    List (Ty × Col) → List Nat → Bool → Except HErr (List Nat × Bool)
  | [], accs, isFirst => .ok (accs, isFirst)
  | (ty, col) :: rest, accs, isFirst => do
      let r ← executeForArgument E p seed ty col accs isFirst
      runArgumentsP E p seed rest r.1 r.2

/-- Whether a column is a `ColumnConst` (`checkAndGetColumn<ColumnConst>`
succeeding). -/
def Col.isConst : Col → Bool
  | .constC _ _ => true
  | _ => false

/-! Helper lemmas about the row loops. -/

@[simp] theorem okBind {α β : Type} (x : α) (f : α → Except HErr β) :
    (Except.ok x >>= f) = f x := rfl

@[simp] theorem pureBind {α β : Type} (x : α) (f : α → Except HErr β) :
    ((pure x : Except HErr α) >>= f) = f x := rfl

@[simp] theorem errBind {α β : Type} (e : HErr) (f : α → Except HErr β) :
    ((Except.error e : Except HErr α) >>= f) = .error e := rfl

theorem byteSlice_append (pre l : List Nat) (len : Nat) :
    byteSlice (pre ++ l) pre.length len = l.take len := by
  simp [byteSlice]

theorem combineSeg_total {p : HashPolicy} {c : Nat → Nat → Nat}
    (hc : TotalCombine p c) (s : List Nat) (h : Nat) :
    combineSeg p h s = .ok (s.foldl c h) := by
  induction s generalizing h with
  | nil => rfl
  | cons e es ih =>
    simp only [combineSeg]
    rw [hc h e]
    simp [ih]

theorem hashVecRows_replicate {α : Type} {p : HashPolicy} {first : Bool}
    {hf : α → Except HErr Nat} {v : α} {h : Nat} (hv : hf v = .ok h) :
    ∀ accs : List Nat,
      hashVecRows p first hf (List.replicate accs.length v) accs
        = hashConstRows p first h accs := by
  intro accs
  induction accs with
  | nil => cases first <;> simp [hashVecRows, hashConstRows, combineAllRows]
  | cons acc accs ih =>
    rw [List.length_cons, List.replicate_succ]
    cases first with
    | false =>
      simp only [hashVecRows, hv, okBind, hashConstRows, combineAllRows,
        Bool.false_eq_true, reduceIte] at ih ⊢
      rw [ih]
    | true =>
      simp only [hashVecRows, hv, okBind, hashConstRows, reduceIte] at ih ⊢
      rw [ih]
      simp [List.replicate_succ]

theorem hashVecRows_replicate_error {α : Type} {p : HashPolicy} {first : Bool}
    {hf : α → Except HErr Nat} {v : α} {e : HErr} (hv : hf v = .error e) :
    ∀ (n : Nat) (accs : List Nat), 0 < n → 0 < accs.length →
      hashVecRows p first hf (List.replicate n v) accs = .error e := by
  intro n accs hn ha
  cases n with
  | zero => omega
  | succ m =>
    cases accs with
    | nil => simp at ha
    | cons acc accs => simp [List.replicate_succ, hashVecRows, hv]

theorem strRows_extract {p : HashPolicy} {seed : Nat} {first : Bool} :
    ∀ (ss : List (List Nat)) (accs pre : List Nat),
      strRows p seed first (pre ++ strJoin ss) pre.length (strOffs pre.length ss) accs
        = hashVecRows p first (fun bs => p.applyH bs seed) ss accs := by
  intro ss
  induction ss with
  | nil => intro accs pre; rfl
  | cons s ss ih =>
    intro accs pre
    cases accs with
    | nil => rfl
    | cons acc accs =>
      simp only [strJoin, strOffs, strRows, hashVecRows]
      have hlen : pre.length + (s.length + 1) - pre.length - 1 = s.length := by omega
      have hsl : byteSlice (pre ++ (s ++ 0 :: strJoin ss)) pre.length s.length = s := by
        rw [byteSlice_append]
        exact List.take_left' rfl
      rw [hlen, hsl]
      have hre : pre ++ (s ++ 0 :: strJoin ss) = (pre ++ (s ++ [0])) ++ strJoin ss := by
        simp
      have hlen2 : pre.length + (s.length + 1) = (pre ++ (s ++ [0])).length := by
        simp
      rw [hre, hlen2, ih accs]

theorem sliceRuns {m : Nat} :
    ∀ ss : List (List Nat), (∀ x ∈ ss, x.length = m) →
      (List.range ss.length).map (fun i => byteSlice ss.flatten (i * m) m) = ss := by
  intro ss
  induction ss with
  | nil => intro; simp
  | cons s ss ih =>
    intro hx
    have hs : s.length = m := hx s (by simp)
    rw [List.length_cons, List.range_succ_eq_map, List.map_cons, List.map_map]
    have hhead : byteSlice (s :: ss).flatten (0 * m) m = s := by
      simp only [List.flatten_cons, byteSlice, Nat.zero_mul, List.drop_zero]
      exact List.take_left' hs
    rw [hhead]
    have htail : ∀ i : Nat,
        byteSlice (s :: ss).flatten (Nat.succ i * m) m = byteSlice ss.flatten (i * m) m := by
      intro i
      simp only [List.flatten_cons, byteSlice, Nat.succ_mul]
      rw [Nat.add_comm (i * m) m, ← hs, List.drop_append]
    have : ((fun i => byteSlice (s :: ss).flatten (i * m) m) ∘ Nat.succ)
        = fun i => byteSlice ss.flatten (i * m) m := by
      funext i
      exact htail i
    rw [this, ih (fun x hxx => hx x (by simp [hxx]))]

theorem arrayRows_spec {E : ExtHash} {p : HashPolicy} {c : Nat → Nat → Nat}
    {first : Bool} (hc : TotalCombine p c) :
    ∀ (ss : List (List Nat)) (accs pre : List Nat), accs.length = ss.length →
      arrayRows E p first (pre ++ ss.flatten) (segOffsets pre.length ss)
          pre.length accs
        = .ok (List.zipWith (arrayRowDigest E p c first) accs ss) := by
  intro ss
  induction ss with
  | nil =>
    intro accs pre hlen
    rw [List.length_eq_zero.mp hlen]
    rfl
  | cons s ss ih =>
    intro accs pre hlen
    cases accs with
    | nil => simp at hlen
    | cons acc accs =>
      simp only [List.length_cons, List.length_cons] at hlen
      simp only [segOffsets, arrayRows, List.flatten_cons]
      have hoff : pre.length + s.length - pre.length = s.length := by omega
      have hsl : byteSlice (pre ++ (s ++ ss.flatten)) pre.length s.length = s := by
        rw [byteSlice_append]
        exact List.take_left' rfl
      rw [hoff, hsl]
      have hlh : (if p.is64 = true then IntHash64Impl.apply E s.length
          else IntHash32Impl.apply E s.length) = lengthHash E p s.length := by
        rw [lengthHash]
      have hre : pre ++ (s ++ ss.flatten) = (pre ++ s) ++ ss.flatten := by
        simp
      have hlen2 : pre.length + s.length = (pre ++ s).length := by simp
      cases first with
      | true =>
        rw [hlh]
        simp only [pureBind, combineSeg_total hc, okBind]
        rw [hre, hlen2, ih accs (pre ++ s) (by omega)]
        simp [List.zipWith, arrayRowDigest]
      | false =>
        rw [hlh, hc acc (lengthHash E p s.length)]
        simp only [okBind, combineSeg_total hc]
        rw [hre, hlen2, ih accs (pre ++ s) (by omega)]
        simp [List.zipWith, arrayRowDigest]

/-- C1: for an array-typed argument, the digest of each row is built by
hashing the row's element count with the fast-path integer hash
(IntHash64Impl for 64-bit-return policies, IntHash32Impl otherwise),
assigning it for a first traversed unit or combining it into the
accumulator otherwise, and then folding in the per-element digests with
the policy's combineHashes in ascending element-index order, the element
digests coming from a nested traversal of the element type with first
(assign) semantics; a constant array column is materialized to a full
column before this computation. -/
theorem claim1_array_row_digests
    (E : ExtHash) (p : HashPolicy) (seed : Nat) (first : Bool) (t : Ty)
    (data : Col) (accs : List Nat) (ss : List (List Nat)) (c : Nat → Nat → Nat)
    (hc : TotalCombine p c)
    (hnested : executeAny E p seed true t data (List.replicate data.rows 0)
      = .ok ss.flatten)
    (hlen : accs.length = ss.length) :
    executeAny E p seed first (.arr t) (.arrC (segOffsets 0 ss) data) accs
        = .ok (List.zipWith (arrayRowDigest E p c first) accs ss)
      ∧ ∀ (n : Nat) (offs : List Nat) (d : Col),
          executeAny E p seed first (.arr t) (.constC n (.arrC offs d)) accs
            = executeAny E p seed first (.arr t)
                (.arrC (tileOffsets n (offs.getLastD 0) offs) (Col.tile n d)) accs := by
  constructor
  · show (do
        let vecTemp ← executeAny E p seed true t data (List.replicate data.rows 0)
        arrayRows E p first vecTemp (segOffsets 0 ss) 0 accs)
      = .ok (List.zipWith (arrayRowDigest E p c first) accs ss)
    rw [hnested, okBind]
    have := @arrayRows_spec E p c first hc ss accs [] hlen
    simpa using this
  · intro n offs d
    rfl

/-- Witness for C1 at a concrete input: a 3-element flat column split
into rows of sizes 2 and 1. -/
theorem claim1_witness :
    TotalCombine witP witC
      ∧ executeAny witE witP 0 true (.int 1) (.vec 1 [7, 8, 9])
          (List.replicate (Col.vec 1 [7, 8, 9]).rows 0) = .ok [[9, 10], [11]].flatten
      ∧ executeAny witE witP 0 true (.arr (.int 1))
          (.arrC (segOffsets 0 [[9, 10], [11]]) (.vec 1 [7, 8, 9])) [0, 0]
        = .ok (List.zipWith (arrayRowDigest witE witP witC true) [0, 0] [[9, 10], [11]]) :=
  ⟨fun _ _ => rfl, rfl,
    (claim1_array_row_digests witE witP 0 true (.int 1) (.vec 1 [7, 8, 9])
      [0, 0] [[9, 10], [11]] witC (fun _ _ => rfl) rfl rfl).1⟩

/-- C3: a variadic integer-returning hash call with an empty argument
list (no non-seed arguments) succeeds and yields a column of `rows` rows
each holding the reserved digest 0xe28dbde7fe22e41c truncated to the
policy's return width — equal to 0xe28dbde7fe22e41c for 64-bit-return
policies, 0xfe22e41c for 32-bit-return policies, and nonzero in both
cases; the same holds for a seeded call whose only argument is the
constant seed. -/
theorem claim3_empty_args (E : ExtHash) (p : HashPolicy) (rows : Nat) :
    executeImpl E p false [] rows = .ok (List.replicate rows (emptyArgsDigest p))
      ∧ (∀ (ty : Ty) (k w v : Nat) (vs : List Nat),
          executeImpl E p true [(ty, .constC k (.vec w (v :: vs)))] rows
            = .ok (List.replicate rows (emptyArgsDigest p)))
      ∧ (p.retWidth = 64 → emptyArgsDigest p = 0xe28dbde7fe22e41c)
      ∧ (p.retWidth = 32 → emptyArgsDigest p = 0xfe22e41c)
      ∧ (p.retWidth = 64 ∨ p.retWidth = 32 → emptyArgsDigest p ≠ 0) := by
  refine ⟨rfl, fun ty k w v vs => rfl, fun h64 => ?_, fun h32 => ?_, fun hw => ?_⟩
  · rw [emptyArgsDigest, h64]
    decide
  · rw [emptyArgsDigest, h32]
    decide
  · rcases hw with h | h <;> rw [emptyArgsDigest, h] <;> decide

/-- Witness for C3 at a 64-bit policy with two rows. -/
theorem claim3_witness :
    executeImpl witE witP false [] 2
        = .ok (List.replicate 2 (emptyArgsDigest witP))
      ∧ emptyArgsDigest witP = 0xe28dbde7fe22e41c
      ∧ emptyArgsDigest witP ≠ 0 :=
  ⟨(claim3_empty_args witE witP 2).1,
    (claim3_empty_args witE witP 2).2.2.1 rfl,
    (claim3_empty_args witE witP 2).2.2.2.2 (Or.inl rfl)⟩

theorem twoConstArgs_notImplemented (E : ExtHash) (p : HashPolicy)
    (hcomb : ∀ a b, p.combine a b = .error .notImplemented)
    (w v1 v2 k1 k2 n : Nat) (h1 h2 : Nat)
    (ha1 : intTypeHash E p 0 w v1 = .ok h1)
    (ha2 : intTypeHash E p 0 w v2 = .ok h2) (hn : 0 < n) :
    executeImpl E p false
        [(.int w, .constC k1 (.vec w [v1])), (.int w, .constC k2 (.vec w [v2]))] n
      = .error .notImplemented := by
  obtain ⟨m, rfl⟩ : ∃ m, n = m + 1 := ⟨n - 1, by omega⟩
  show (do
      let r ← executeForArgument E p 0 (.int w) (.constC k1 (.vec w [v1]))
        (List.replicate (m + 1) 0) true
      runArguments E p 0 [(.int w, .constC k2 (.vec w [v2]))] r.1 r.2) = _
  have e1 : executeForArgument E p 0 (.int w) (.constC k1 (.vec w [v1]))
      (List.replicate (m + 1) 0) true
      = .ok (List.replicate (m + 1) h1, false) := by
    show (do
        let r ← executeIntType E p 0 true w (.constC k1 (.vec w [v1]))
          (List.replicate (m + 1) 0)
        Except.ok (r, false)) = _
    simp [executeIntType, ha1, hashConstRows]
  rw [e1, okBind]
  have e2 : executeForArgument E p 0 (.int w) (.constC k2 (.vec w [v2]))
      (List.replicate (m + 1) h1) false = .error .notImplemented := by
    show (do
        let r ← executeIntType E p 0 false w (.constC k2 (.vec w [v2]))
          (List.replicate (m + 1) h1)
        Except.ok (r, false)) = _
    simp [executeIntType, ha2, hashConstRows, List.replicate_succ, combineAllRows, hcomb]
  show (do
      let r ← executeForArgument E p 0 (.int w) (.constC k2 (.vec w [v2]))
        (List.replicate (m + 1) h1) false
      runArguments E p 0 [] r.1 r.2) = _
  rw [e2]
  rfl

theorem utf16leApplyPair (a b : Nat) :
    ∃ h, JavaHashUTF16LEImpl.apply [a, b] = .ok h := by
  by_cases hab : a = 255 ∧ b = 254
  · obtain ⟨rfl, rfl⟩ := hab
    exact ⟨javaHashOfUnits [], rfl⟩
  · refine ⟨javaHashOfUnits (utf16leUnits [a, b]), ?_⟩
    rw [JavaHashUTF16LEImpl.apply.eq_2 _ ?side]
    case side =>
      intro rest heq
      apply hab
      injection heq with h1 h2
      injection h2 with h3 _
      exact ⟨h1, h3⟩
    rw [if_neg (by simp)]

/-- C4: the javaHash, javaHashUTF16LE and hiveHash policies raise
NOT_IMPLEMENTED on every invocation of combineHashes and never return a
digest; consequently a two-argument call on at least one row (whose
argument list flattens to two traversed units) fails with
NOT_IMPLEMENTED for each of the three. -/
theorem claim4_java_hive_not_combinable :
    (∀ h1 h2, JavaHashImpl.combineHashes h1 h2 = .error .notImplemented)
      ∧ (∀ h1 h2, JavaHashUTF16LEImpl.combineHashes h1 h2 = .error .notImplemented)
      ∧ (∀ h1 h2, HiveHashImpl.combineHashes h1 h2 = .error .notImplemented)
      ∧ (∀ h1 h2 r, JavaHashImpl.combineHashes h1 h2 ≠ .ok r)
      ∧ (∀ (E : ExtHash) (w v1 v2 k1 k2 n : Nat), 0 < n →
          executeImpl E JavaHashImpl.policy false
              [(.int w, .constC k1 (.vec w [v1])), (.int w, .constC k2 (.vec w [v2]))] n
            = .error .notImplemented)
      ∧ (∀ (E : ExtHash) (v1 v2 k1 k2 n : Nat), 0 < n →
          executeImpl E JavaHashUTF16LEImpl.policy false
              [(.int 2, .constC k1 (.vec 2 [v1])), (.int 2, .constC k2 (.vec 2 [v2]))] n
            = .error .notImplemented)
      ∧ (∀ (E : ExtHash) (w v1 v2 k1 k2 n : Nat), 0 < n →
          executeImpl E HiveHashImpl.policy false
              [(.int w, .constC k1 (.vec w [v1])), (.int w, .constC k2 (.vec w [v2]))] n
            = .error .notImplemented) := by
  refine ⟨fun _ _ => rfl, fun _ _ => rfl, fun _ _ => rfl,
    fun _ _ _ h => by exact absurd h (by simp [JavaHashImpl.combineHashes]),
    ?_, ?_, ?_⟩
  · intro E w v1 v2 k1 k2 n hn
    exact twoConstArgs_notImplemented E _ (fun _ _ => rfl) w v1 v2 k1 k2 n _ _ rfl rfl hn
  · intro E v1 v2 k1 k2 n hn
    obtain ⟨h1, e1⟩ := utf16leApplyPair (v1 % 256) (v1 / 256 % 256)
    obtain ⟨h2, e2⟩ := utf16leApplyPair (v2 % 256) (v2 / 256 % 256)
    exact twoConstArgs_notImplemented E _ (fun _ _ => rfl) 2 v1 v2 k1 k2 n h1 h2 e1 e2 hn
  · intro E w v1 v2 k1 k2 n hn
    exact twoConstArgs_notImplemented E _ (fun _ _ => rfl) w v1 v2 k1 k2 n _ _ rfl rfl hn

/-- Witness for C4 at a concrete two-argument, one-row javaHash call. -/
theorem claim4_witness :
    (0 : Nat) < 1
      ∧ executeImpl witE JavaHashImpl.policy false
            [(.int 1, .constC 1 (.vec 1 [3])), (.int 1, .constC 1 (.vec 1 [4]))] 1
          = .error .notImplemented :=
  ⟨Nat.one_pos,
    claim4_java_hive_not_combinable.2.2.2.2.1 witE 1 3 4 1 1 1 Nat.one_pos⟩

theorem lorShiftEight (a b : Nat) (ha : a < 256) :
    a ||| (b <<< 8) = a + b * 256 := by
  apply Nat.eq_of_testBit_eq
  intro i
  rw [Nat.testBit_lor, Nat.testBit_shiftLeft]
  rcases Nat.lt_or_ge i 8 with hi | hi
  · have h2 : (decide (i ≥ 8) && b.testBit (i - 8)) = false := by
      simp [Nat.not_le.mpr hi]
    rw [h2, Bool.or_false]
    have hmod : (a + b * 256) % 2 ^ 8 = a := by norm_num; omega
    have hx := Nat.testBit_mod_two_pow (a + b * 256) 8 i
    rw [hmod] at hx
    rw [hx]
    simp [hi]
  · have h1 : a.testBit i = false :=
      Nat.testBit_eq_false_of_lt (lt_of_lt_of_le ha (by
        calc (256 : Nat) = 2 ^ 8 := by norm_num
        _ ≤ 2 ^ i := Nat.pow_le_pow_right (by norm_num) hi))
    rw [h1, Bool.false_or]
    have hdiv : (a + b * 256) / 2 ^ 8 = b := by norm_num; omega
    have hieq : 8 + (i - 8) = i := by omega
    have hb : (a + b * 256).testBit i = ((a + b * 256) / 2 ^ 8).testBit (i - 8) := by
      rw [Nat.testBit_to_div_mod, Nat.testBit_to_div_mod, Nat.div_div_eq_div_mul,
        ← pow_add, hieq]
    rw [hb, hdiv]
    simp [hi]

/-- C9: hiveHash's per-buffer hash is the Java hash of the same bytes
with the most significant (sign) bit cleared — `javaHash(bytes) &
0x7FFFFFFF` — hence always a non-negative 32-bit signed value (below
`2 ^ 31`, sign bit clear). -/
theorem claim9_hive_masked_java (data : List Nat) :
    HiveHashImpl.apply data = JavaHashImpl.apply data &&& 0x7FFFFFFF
      ∧ HiveHashImpl.apply data < 2 ^ 31
      ∧ (HiveHashImpl.apply data).testBit 31 = false := by
  have hle : HiveHashImpl.apply data < 2 ^ 31 := by
    have h1 : HiveHashImpl.apply data ≤ 0x7FFFFFFF := Nat.and_le_left
    omega
  exact ⟨Nat.land_comm _ _, hle, Nat.testBit_eq_false_of_lt hle⟩

/-- C10: javaHashUTF16LE's per-buffer hash strips a leading UTF-16LE
byte-order mark (0xFF 0xFE) when present, raises BAD_ARGUMENTS (and
returns no value) when the remaining byte count is odd, and otherwise
returns the Java string hash of the little-endian 16-bit code units
(`b0 + 256 * b1` for each byte pair) of the remaining bytes. -/
theorem claim10_utf16le_characterization :
    (∀ rest : List Nat,
        JavaHashUTF16LEImpl.apply (255 :: 254 :: rest)
          = if rest.length % 2 = 0 then .ok (javaHashOfUnits (utf16leUnits rest))
            else .error .badArguments)
      ∧ (∀ data : List Nat, (∀ rest, data ≠ 255 :: 254 :: rest) →
          JavaHashUTF16LEImpl.apply data
            = if data.length % 2 = 0 then .ok (javaHashOfUnits (utf16leUnits data))
              else .error .badArguments)
      ∧ (∀ b0 b1 : Nat, ∀ rest : List Nat, b0 < 256 → b1 < 256 →
          utf16leUnits (b0 :: b1 :: rest) = (b0 + b1 * 256) :: utf16leUnits rest) := by
  refine ⟨?_, ?_, ?_⟩
  · intro rest
    rw [JavaHashUTF16LEImpl.apply.eq_1]
    rcases Nat.even_or_odd rest.length with he | ho
    · have h0 : rest.length % 2 = 0 := Nat.even_iff.mp he
      simp [h0]
    · have h1 : rest.length % 2 = 1 := Nat.odd_iff.mp ho
      simp [h1]
  · intro data hnb
    rw [JavaHashUTF16LEImpl.apply.eq_2 _ (fun rest heq => hnb rest heq)]
    rcases Nat.even_or_odd data.length with he | ho
    · have h0 : data.length % 2 = 0 := Nat.even_iff.mp he
      simp [h0]
    · have h1 : data.length % 2 = 1 := Nat.odd_iff.mp ho
      simp [h1]
  · intro b0 b1 rest hb0 hb1
    show ((b0 % 256) ||| ((b1 % 256) <<< 8)) :: utf16leUnits rest = _
    rw [Nat.mod_eq_of_lt hb0, Nat.mod_eq_of_lt hb1, lorShiftEight b0 b1 hb0]

/-- Witness for C10: the byte-order mark is stripped, an odd buffer is
rejected, and the code units of two bytes decode little-endian. -/
theorem claim10_witness :
    JavaHashUTF16LEImpl.apply [255, 254, 104, 1]
        = .ok (javaHashOfUnits (utf16leUnits [104, 1]))
      ∧ JavaHashUTF16LEImpl.apply [104] = .error .badArguments
      ∧ (104 : Nat) < 256 ∧ (1 : Nat) < 256
      ∧ utf16leUnits [104, 1] = [104 + 1 * 256] := by
  refine ⟨?_, ?_, by decide, by decide, ?_⟩
  · rw [claim10_utf16le_characterization.1 [104, 1]]
    rfl
  · rw [claim10_utf16le_characterization.2.1 [104] (fun rest h => by injection h with h1 _; omega)]
    rfl
  · rw [claim10_utf16le_characterization.2.2 104 1 [] (by decide) (by decide)]
    rfl

/-- C6: for every hash primitive, a non-empty input whose last byte is
`/`, `?` or `#` is hashed as the input with that single trailing byte
removed (exactly one separator is stripped); any other input — the empty
string included — is hashed whole; in particular
URLHash("http://x/") = URLHash("http://x"). -/
theorem claim6_url_strip_trailing_sep (city : List Nat → Nat) :
    (∀ (s : List Nat) (b : Nat), isSep b = true →
        URLHashImpl.apply city (s ++ [b]) = city s)
      ∧ (∀ s : List Nat, isSep (s.getLastD 0) = false →
          URLHashImpl.apply city s = city s)
      ∧ URLHashImpl.apply city [] = city []
      ∧ URLHashImpl.apply city [104, 116, 116, 112, 58, 47, 47, 120, 47]
          = URLHashImpl.apply city [104, 116, 116, 112, 58, 47, 47, 120] := by
  refine ⟨?_, ?_, rfl, rfl⟩
  · intro s b hb
    rw [URLHashImpl.apply, if_pos ⟨by simp, by rw [List.getLastD_concat]; exact hb⟩,
      List.dropLast_concat]
  · intro s hb
    rw [URLHashImpl.apply, if_neg]
    intro hcontra
    rw [hb] at hcontra
    exact Bool.false_ne_true hcontra.2

/-- Witness for C6: stripping one trailing slash from "x/" under a
concrete byte hash, and an unstripped input. -/
theorem claim6_witness :
    isSep 47 = true
      ∧ URLHashImpl.apply witCity ([120] ++ [47]) = witCity [120]
      ∧ isSep (([120] : List Nat).getLastD 0) = false
      ∧ URLHashImpl.apply witCity [120] = witCity [120] :=
  ⟨rfl, (claim6_url_strip_trailing_sep witCity).1 [120] 47 rfl, rfl,
    (claim6_url_strip_trailing_sep witCity).2.1 [120] rfl⟩

/-- C5: for every hash primitive, an input with no recognizable
scheme/double-slash form maps to the whole input at level 0 and to a
zero-length prefix (the hash of the empty buffer) at every level N > 0;
and for "http://x/a/b" the level-1 hash equals the URL hash of
"http://x/a/" taken as a whole string. -/
theorem claim5_url_hierarchy (city : List Nat → Nat) :
    (∀ s : List Nat, hasSchemeForm s = false →
        URLHierarchyHashImpl.findLevelLength 0 s = s.length
          ∧ URLHierarchyHashImpl.apply city 0 s = URLHashImpl.apply city s
          ∧ ∀ N : Nat, 0 < N →
              URLHierarchyHashImpl.findLevelLength N s = 0
                ∧ URLHierarchyHashImpl.apply city N s = city [])
      ∧ URLHierarchyHashImpl.apply city 1 [104, 116, 116, 112, 58, 47, 47, 120, 47, 97, 47, 98]
          = URLHashImpl.apply city [104, 116, 116, 112, 58, 47, 47, 120, 47, 97, 47] := by
  constructor
  · intro s hs
    have hlen0 : URLHierarchyHashImpl.findLevelLength 0 s = s.length := by
      rw [URLHierarchyHashImpl.findLevelLength]
      simp [hs]
    refine ⟨hlen0, ?_, ?_⟩
    · rw [URLHierarchyHashImpl.apply, hlen0, List.take_length]
    · intro N hN
      have hlenN : URLHierarchyHashImpl.findLevelLength N s = 0 := by
        rw [URLHierarchyHashImpl.findLevelLength]
        simp [hs, Nat.pos_iff_ne_zero.mp hN]
      refine ⟨hlenN, ?_⟩
      rw [URLHierarchyHashImpl.apply, hlenN, List.take_zero]
      rfl
  · rfl

/-- Witness for C5: "a" has no scheme form, so level 0 hashes the whole
input and level 2 hashes the empty prefix, under a concrete byte hash. -/
theorem claim5_witness :
    hasSchemeForm [97] = false
      ∧ (0 : Nat) < 2
      ∧ URLHierarchyHashImpl.findLevelLength 0 [97] = 1
      ∧ URLHierarchyHashImpl.findLevelLength 2 [97] = 0
      ∧ URLHierarchyHashImpl.apply witCity 2 [97] = witCity [] :=
  ⟨rfl, Nat.zero_lt_two,
    ((claim5_url_hierarchy witCity).1 [97] rfl).1,
    (((claim5_url_hierarchy witCity).1 [97] rfl).2.2 2 Nat.zero_lt_two).1,
    (((claim5_url_hierarchy witCity).1 [97] rfl).2.2 2 Nat.zero_lt_two).2⟩

theorem hashVecConstDense {α : Type} (p : HashPolicy) (first : Bool)
    (hf : α → Except HErr Nat) (v : α) (accs : List Nat) (h0 : 0 < accs.length) :
    (do let h ← hf v; hashConstRows p first h accs)
      = hashVecRows p first hf (List.replicate accs.length v) accs := by
  cases hh : hf v with
  | ok h =>
    rw [okBind]
    exact (hashVecRows_replicate hh accs).symm
  | error e =>
    rw [errBind]
    exact (hashVecRows_replicate_error hh accs.length accs h0 h0).symm

theorem constStrValue_single (s : List Nat) :
    constStrValue (strColOfList [s]) = some s := by
  show (if ([] : List Nat) = [] then
      some (byteSlice (s ++ 0 :: strJoin []) 0 (0 + (s.length + 1) - 1)) else none) = some s
  rw [if_pos rfl]
  congr 1
  have he : 0 + (s.length + 1) - 1 = s.length := by omega
  rw [he]
  show ((s ++ [0]).drop 0).take s.length = s
  rw [List.drop_zero]
  exact List.take_left' rfl

/-- C7: for every policy and every scalar or string type, traversing a
constant column over a value equals traversing the dense column holding
that value in every row — for any accumulator contents and in both
first-argument (assign) and subsequent-argument (combine) position: the
value is hashed once and the single digest assigned to or combined into
every row.  Covers the integer path, the big-integer path, `ColumnString`
and `ColumnFixedString`. -/
theorem claim7_const_dense_equivalence
    (E : ExtHash) (p : HashPolicy) (seed : Nat) (first : Bool) :
    (∀ (w v k : Nat) (accs : List Nat), 0 < accs.length →
        executeAny E p seed first (.int w) (.constC k (.vec w [v])) accs
          = executeAny E p seed first (.int w) (.vec w (List.replicate accs.length v)) accs)
      ∧ (∀ (w v k : Nat) (accs : List Nat), 0 < accs.length →
          executeAny E p seed first (.big w) (.constC k (.vec w [v])) accs
            = executeAny E p seed first (.big w) (.vec w (List.replicate accs.length v)) accs)
      ∧ (∀ (s : List Nat) (k : Nat) (accs : List Nat), 0 < accs.length →
          executeAny E p seed first .str (.constC k (strColOfList [s])) accs
            = executeAny E p seed first .str (strColOfList (List.replicate accs.length s)) accs)
      ∧ (∀ (m : Nat) (s : List Nat) (k : Nat) (accs : List Nat),
          s.length = m → 0 < m → 0 < accs.length →
          executeAny E p seed first (.fstr m) (.constC k (.fstrC m s)) accs
            = executeAny E p seed first (.fstr m)
                (.fstrC m (joinReplicate accs.length s)) accs) := by
  refine ⟨?_, ?_, ?_, ?_⟩
  · intro w v k accs h0
    show (if w = w then (do
        let h ← intTypeHash E p seed w v
        hashConstRows p first h accs) else Except.error HErr.illegalColumn)
      = (if w = w then
          hashVecRows p first (intTypeHash E p seed w) (List.replicate accs.length v) accs
        else Except.error HErr.illegalColumn)
    rw [if_pos rfl, if_pos rfl]
    exact hashVecConstDense p first _ v accs h0
  · intro w v k accs h0
    show (if w = w then (do
        let h ← bigTypeHash p seed w v
        hashConstRows p first h accs) else Except.error HErr.illegalColumn)
      = (if w = w then
          hashVecRows p first (bigTypeHash p seed w) (List.replicate accs.length v) accs
        else Except.error HErr.illegalColumn)
    rw [if_pos rfl, if_pos rfl]
    exact hashVecConstDense p first _ v accs h0
  · intro s k accs h0
    have hconst : executeAny E p seed first .str (.constC k (strColOfList [s])) accs
        = (do let h ← p.applyH s seed; hashConstRows p first h accs) := by
      show (match constStrValue (strColOfList [s]) with
          | some sv => do
              let h ← p.applyH sv seed
              hashConstRows p first h accs
          | none => Except.error HErr.illegalColumn) = _
      rw [constStrValue_single]
    have hdense :
        executeAny E p seed first .str (strColOfList (List.replicate accs.length s)) accs
          = hashVecRows p first (fun bs => p.applyH bs seed)
              (List.replicate accs.length s) accs := by
      show strRows p seed first (strJoin (List.replicate accs.length s)) 0
          (strOffs 0 (List.replicate accs.length s)) accs = _
      have hx := @strRows_extract p seed first (List.replicate accs.length s) accs []
      simpa using hx
    rw [hconst, hdense]
    exact hashVecConstDense p first (fun bs => p.applyH bs seed) s accs h0
  · intro m s k accs hm hm0 h0
    have hconst : executeAny E p seed first (.fstr m) (.constC k (.fstrC m s)) accs
        = (do let h ← p.applyH s seed; hashConstRows p first h accs) := by
      show (match constStrValue (.fstrC m s) with
          | some sv => do
              let h ← p.applyH sv seed
              hashConstRows p first h accs
          | none => Except.error HErr.illegalColumn) = _
      have hv : constStrValue (.fstrC m s) = some s := by
        show (if s.length = m then some s else none) = some s
        rw [if_pos hm]
      rw [hv]
    have hlen : (joinReplicate accs.length s).length = accs.length * m := by
      simp [joinReplicate, List.length_flatten, List.map_replicate, hm, List.sum_replicate,
        smul_eq_mul]
    have hdiv : (joinReplicate accs.length s).length / m = accs.length := by
      rw [hlen]
      exact Nat.mul_div_cancel accs.length hm0
    have hruns : (List.range ((joinReplicate accs.length s).length / m)).map
        (fun i => byteSlice (joinReplicate accs.length s) (i * m) m)
        = List.replicate accs.length s := by
      rw [hdiv]
      have hx := @sliceRuns m (List.replicate accs.length s)
        (fun x hx => by rw [List.eq_of_mem_replicate hx]; exact hm)
      simpa [joinReplicate] using hx
    have hdense : executeAny E p seed first (.fstr m)
        (.fstrC m (joinReplicate accs.length s)) accs
        = hashVecRows p first (fun bs => p.applyH bs seed)
            (List.replicate accs.length s) accs := by
      show hashVecRows p first (fun bs => p.applyH bs seed)
          ((List.range ((joinReplicate accs.length s).length / m)).map
            fun i => byteSlice (joinReplicate accs.length s) (i * m) m) accs = _
      rw [hruns]
    rw [hconst, hdense]
    exact hashVecConstDense p first (fun bs => p.applyH bs seed) s accs h0

/-- Witness for C7: a constant integer column and a constant string
column against their dense two-row counterparts, in combine position. -/
theorem claim7_witness :
    (0 : Nat) < ([5, 6] : List Nat).length
      ∧ executeAny witE witP 0 false (.int 1) (.constC 2 (.vec 1 [9])) [5, 6]
          = executeAny witE witP 0 false (.int 1)
              (.vec 1 (List.replicate ([5, 6] : List Nat).length 9)) [5, 6]
      ∧ executeAny witE witP 0 false .str (.constC 2 (strColOfList [[97, 98]])) [5, 6]
          = executeAny witE witP 0 false .str
              (strColOfList (List.replicate ([5, 6] : List Nat).length [97, 98])) [5, 6] :=
  ⟨Nat.zero_lt_two,
    (claim7_const_dense_equivalence witE witP 0 false).1 1 9 2 [5, 6] Nat.zero_lt_two,
    (claim7_const_dense_equivalence witE witP 0 false).2.2.1 [97, 98] 2 [5, 6] Nat.zero_lt_two⟩

theorem runArguments_eq_P (E : ExtHash) (p : HashPolicy) (seed : Nat) :
    ∀ (args : List (Ty × Col)) (accs : List Nat) (f : Bool),
      runArguments E p seed args accs f
        = (runArgumentsP E p seed args accs f).map Prod.fst := by
  intro args
  induction args with
  | nil => intro accs f; rfl
  | cons a rest ih =>
    intro accs f
    obtain ⟨ty, col⟩ := a
    show (do
        let r ← executeForArgument E p seed ty col accs f
        runArguments E p seed rest r.1 r.2) = _
    cases hx : executeForArgument E p seed ty col accs f with
    | ok r => simp [runArgumentsP, hx, ih r.1 r.2]
    | error e => simp [runArgumentsP, hx, Except.map]

theorem runArgumentsP_append (E : ExtHash) (p : HashPolicy) (seed : Nat) :
    ∀ (a b : List (Ty × Col)) (accs : List Nat) (f : Bool),
      runArgumentsP E p seed (a ++ b) accs f
        = (do
            let r ← runArgumentsP E p seed a accs f
            runArgumentsP E p seed b r.1 r.2) := by
  intro a
  induction a with
  | nil => intro b accs f; simp [runArgumentsP]
  | cons x rest ih =>
    intro b accs f
    obtain ⟨ty, col⟩ := x
    show (do
        let r ← executeForArgument E p seed ty col accs f
        runArgumentsP E p seed (rest ++ b) r.1 r.2) = _
    cases hx : executeForArgument E p seed ty col accs f with
    | ok r => simp [runArgumentsP, hx, ih]
    | error e => simp [runArgumentsP, hx]

theorem bindOkFalse {β γ : Type} (x : Except HErr β) (g : β → γ)
    (r : γ × Bool)
    (h : (do let a ← x; Except.ok (g a, false)) = .ok r) : r.2 = false := by
  cases x with
  | ok a =>
    rw [okBind] at h
    cases h
    rfl
  | error e => exact absurd h (by simp)

theorem executeForArgument_flag (E : ExtHash) (p : HashPolicy) (seed : Nat)
    (ty : Ty) (col : Col) (accs : List Nat) (f : Bool) (r : List Nat × Bool)
    (h : executeForArgument E p seed ty col accs f = .ok r) : r.2 = false := by
  cases ty with
  | tup ts =>
    cases col with
    | tupC cols => exact bindOkFalse _ _ r h
    | constC n inner =>
      cases inner with
      | vec w vals => exact bindOkFalse _ _ r h
      | strC chars offsets => exact bindOkFalse _ _ r h
      | fstrC n chars => exact bindOkFalse _ _ r h
      | arrC offsets data => exact bindOkFalse _ _ r h
      | tupC cols => exact bindOkFalse _ _ r h
      | constC n data => exact bindOkFalse _ _ r h
    | vec w vals => exact bindOkFalse _ _ r h
    | strC chars offsets => exact bindOkFalse _ _ r h
    | fstrC n chars => exact bindOkFalse _ _ r h
    | arrC offsets data => exact bindOkFalse _ _ r h
  | int w => exact bindOkFalse _ _ r h
  | big w => exact bindOkFalse _ _ r h
  | str => exact bindOkFalse _ _ r h
  | fstr n => exact bindOkFalse _ _ r h
  | arr t => exact bindOkFalse _ _ r h

theorem runArgumentsP_flag (E : ExtHash) (p : HashPolicy) (seed : Nat) :
    ∀ (args : List (Ty × Col)) (accs : List Nat) (f : Bool) (r : List Nat × Bool),
      args ≠ [] → runArgumentsP E p seed args accs f = .ok r → r.2 = false := by
  intro args
  induction args with
  | nil => intro accs f r hne; exact absurd rfl hne
  | cons x rest ih =>
    intro accs f r _ h
    obtain ⟨ty, col⟩ := x
    change (do
        let rr ← executeForArgument E p seed ty col accs f
        runArgumentsP E p seed rest rr.1 rr.2) = .ok r at h
    cases hx : executeForArgument E p seed ty col accs f with
    | error e => rw [hx, errBind] at h; exact absurd h (by simp)
    | ok rr =>
      rw [hx, okBind] at h
      cases rest with
      | nil =>
        change Except.ok (rr.1, rr.2) = .ok r at h
        cases h
        exact executeForArgument_flag E p seed ty col accs f rr hx
      | cons y more => exact ih rr.1 rr.2 r (by simp) h

theorem forArgumentFields_eq_P (E : ExtHash) (p : HashPolicy) (seed : Nat) :
    ∀ (ts : List Ty) (cols : List Col) (accs : List Nat) (f : Bool),
      forArgumentFields E p seed ts cols accs f
        = runArgumentsP E p seed (ts.zip cols) accs f := by
  intro ts
  induction ts with
  | nil => intro cols accs f; cases cols <;> rfl
  | cons t ts ih =>
    intro cols accs f
    cases cols with
    | nil => rfl
    | cons c cs =>
      show (do
          let r ← executeForArgument E p seed t c accs f
          forArgumentFields E p seed ts cs r.1 r.2) = _
      cases hx : executeForArgument E p seed t c accs f with
      | ok r => simp [List.zip, List.zip_cons_cons, runArgumentsP, hx, ih]
      | error e => simp [List.zip, List.zip_cons_cons, runArgumentsP, hx]

theorem forArgumentConstFields_eq_P (E : ExtHash) (p : HashPolicy) (seed n : Nat) :
    ∀ (ts : List Ty) (cols : List Col) (accs : List Nat) (f : Bool),
      forArgumentConstFields E p seed n ts cols accs f
        = runArgumentsP E p seed (ts.zip (cols.map (Col.constC n))) accs f := by
  intro ts
  induction ts with
  | nil => intro cols accs f; cases cols <;> rfl
  | cons t ts ih =>
    intro cols accs f
    cases cols with
    | nil => rfl
    | cons c cs =>
      show (do
          let r ← executeForArgument E p seed t (.constC n c) accs f
          forArgumentConstFields E p seed n ts cs r.1 r.2) = _
      cases hx : executeForArgument E p seed t (.constC n c) accs f with
      | ok r => simp [List.zip, List.zip_cons_cons, runArgumentsP, hx, ih]
      | error e => simp [List.zip, List.zip_cons_cons, runArgumentsP, hx]

theorem runArgumentsP_tuple_head (E : ExtHash) (p : HashPolicy) (seed : Nat)
    (ts : List Ty) (cols : List Col) (rest : List (Ty × Col))
    (accs : List Nat) (f : Bool) (hzip : ts.zip cols ≠ []) :
    runArgumentsP E p seed ((Ty.tup ts, Col.tupC cols) :: rest) accs f
      = runArgumentsP E p seed (ts.zip cols ++ rest) accs f := by
  show (do
      let r ← executeForArgument E p seed (.tup ts) (.tupC cols) accs f
      runArgumentsP E p seed rest r.1 r.2) = _
  have harg : executeForArgument E p seed (.tup ts) (.tupC cols) accs f
      = (do
          let rr ← runArgumentsP E p seed (ts.zip cols) accs f
          Except.ok (rr.1, false)) := by
    show (do
        let rr ← forArgumentFields E p seed ts cols accs f
        Except.ok (rr.1, false)) = _
    rw [forArgumentFields_eq_P]
  rw [harg, runArgumentsP_append]
  cases hx : runArgumentsP E p seed (ts.zip cols) accs f with
  | error e => simp
  | ok rr =>
    simp only [okBind]
    have hf2 : rr.2 = false := runArgumentsP_flag E p seed (ts.zip cols) accs f rr hzip hx
    rw [hf2]

theorem runArgumentsP_tuple_const_head (E : ExtHash) (p : HashPolicy) (seed n : Nat)
    (ts : List Ty) (cols : List Col) (rest : List (Ty × Col))
    (accs : List Nat) (f : Bool) (hzip : ts.zip (cols.map (Col.constC n)) ≠ []) :
    runArgumentsP E p seed ((Ty.tup ts, Col.constC n (Col.tupC cols)) :: rest) accs f
      = runArgumentsP E p seed (ts.zip (cols.map (Col.constC n)) ++ rest) accs f := by
  show (do
      let r ← executeForArgument E p seed (.tup ts) (.constC n (.tupC cols)) accs f
      runArgumentsP E p seed rest r.1 r.2) = _
  have harg : executeForArgument E p seed (.tup ts) (.constC n (.tupC cols)) accs f
      = (do
          let rr ← runArgumentsP E p seed (ts.zip (cols.map (Col.constC n))) accs f
          Except.ok (rr.1, false)) := by
    show (do
        let rr ← forArgumentConstFields E p seed n ts cols accs f
        Except.ok (rr.1, false)) = _
    rw [forArgumentConstFields_eq_P]
  rw [harg, runArgumentsP_append]
  cases hx : runArgumentsP E p seed (ts.zip (cols.map (Col.constC n))) accs f with
  | error e => simp
  | ok rr =>
    simp only [okBind]
    have hf2 : rr.2 = false :=
      runArgumentsP_flag E p seed _ accs f rr hzip hx
    rw [hf2]

theorem executeImpl_noseed (E : ExtHash) (p : HashPolicy)
    (args : List (Ty × Col)) (rows : Nat) (hargs : args ≠ []) :
    executeImpl E p false args rows
      = runArguments E p 0 args (List.replicate rows 0) true := by
  show (if args.length - 0 = 0 then
        Except.ok (List.replicate rows (emptyArgsDigest p))
      else runArguments E p 0 (args.take (args.length - 0)) (List.replicate rows 0) true)
    = _
  rw [Nat.sub_zero, if_neg (by simpa using hargs), List.take_length]

/-- C2: a tuple-typed call argument (dense or constant) produces exactly
the result column obtained by replacing it with its fields, in
declaration order, as separate top-level arguments of executeImpl — every
field is assigned into or combined into the running row digest as if it
were its own argument, and the tuple is never hashed as one unit. -/
theorem claim2_tuple_flattening
    (E : ExtHash) (p : HashPolicy) (ts : List Ty) (cols : List Col)
    (pre post : List (Ty × Col)) (rows n : Nat)
    (hzip : ts.zip cols ≠ []) :
    executeImpl E p false (pre ++ (Ty.tup ts, Col.tupC cols) :: post) rows
        = executeImpl E p false (pre ++ (ts.zip cols ++ post)) rows
      ∧ executeImpl E p false
            (pre ++ (Ty.tup ts, Col.constC n (Col.tupC cols)) :: post) rows
          = executeImpl E p false
              (pre ++ (ts.zip (cols.map (Col.constC n)) ++ post)) rows := by
  have hzipc : ts.zip (cols.map (Col.constC n)) ≠ [] := by
    cases ts with
    | nil => simp [List.zip] at hzip
    | cons t ts' =>
      cases cols with
      | nil => simp [List.zip] at hzip
      | cons c cs => simp [List.zip]
  constructor
  · rw [executeImpl_noseed _ _ _ _ (by simp),
      executeImpl_noseed _ _ _ _ (by
        intro h
        rcases List.append_eq_nil.mp h with ⟨h1, h2⟩
        rcases List.append_eq_nil.mp h2 with ⟨h3, h4⟩
        exact hzip h3),
      runArguments_eq_P, runArguments_eq_P]
    congr 1
    rw [runArgumentsP_append, runArgumentsP_append]
    cases hx : runArgumentsP E p 0 pre (List.replicate rows 0) true with
    | error e => simp
    | ok r =>
      simp only [okBind]
      exact runArgumentsP_tuple_head E p 0 ts cols post r.1 r.2 hzip
  · rw [executeImpl_noseed _ _ _ _ (by simp),
      executeImpl_noseed _ _ _ _ (by
        intro h
        rcases List.append_eq_nil.mp h with ⟨h1, h2⟩
        rcases List.append_eq_nil.mp h2 with ⟨h3, h4⟩
        exact hzipc h3),
      runArguments_eq_P, runArguments_eq_P]
    congr 1
    rw [runArgumentsP_append, runArgumentsP_append]
    cases hx : runArgumentsP E p 0 pre (List.replicate rows 0) true with
    | error e => simp
    | ok r =>
      simp only [okBind]
      exact runArgumentsP_tuple_const_head E p 0 n ts cols post r.1 r.2 hzipc

/-- Witness for C2: a two-field tuple argument between two scalar
arguments gives the same column as its fields spliced in. -/
theorem claim2_witness :
    ([Ty.int 1, Ty.int 1].zip [Col.vec 1 [3, 4], Col.vec 1 [5, 6]] ≠ [])
      ∧ executeImpl witE witP false
            ([(Ty.int 1, Col.vec 1 [1, 2])]
              ++ (Ty.tup [.int 1, .int 1], Col.tupC [.vec 1 [3, 4], .vec 1 [5, 6]])
                :: [(Ty.int 1, Col.vec 1 [7, 8])]) 2
          = executeImpl witE witP false
              ([(Ty.int 1, Col.vec 1 [1, 2])]
                ++ ([Ty.int 1, Ty.int 1].zip [Col.vec 1 [3, 4], Col.vec 1 [5, 6]]
                  ++ [(Ty.int 1, Col.vec 1 [7, 8])])) 2 :=
  ⟨by simp [List.zip],
    (claim2_tuple_flattening witE witP [.int 1, .int 1] [.vec 1 [3, 4], .vec 1 [5, 6]]
      [(Ty.int 1, Col.vec 1 [1, 2])] [(Ty.int 1, Col.vec 1 [7, 8])] 2 1
      (by simp [List.zip])).1⟩


/-- C8: for the "with seed" variants of both drivers, a trailing seed
argument that is not materialized as a constant column fails with
LOGICAL_ERROR before any output is produced; a constant seed column is
read once as a single unsigned 32-bit value (`getValue<UInt32>`, modulo
`2 ^ 32`) and that one value drives the entire call. -/
theorem claim8_seed_constant
    (E : ExtHash) (p : HashPolicy) (F : FixedHashImpl) :
    (∀ (args : List (Ty × Col)) (rows : Nat) (ty : Ty) (col : Col),
        Col.isConst col = false →
        executeImpl E p true (args ++ [(ty, col)]) rows = .error .logicalError)
      ∧ (∀ (args : List (Ty × Col)) (rows k w v : Nat) (vs : List Nat) (ty : Ty),
          executeImpl E p true (args ++ [(ty, .constC k (.vec w (v :: vs)))]) rows
            = if args.length = 0 then .ok (List.replicate rows (emptyArgsDigest p))
              else runArguments E p (v % 2 ^ 32) args (List.replicate rows 0) true)
      ∧ (∀ (args : List Col) (col : Col), Col.isConst col = false →
          FunctionStringHashFixedString.executeImpl F true (args ++ [col])
            = .error .logicalError)
      ∧ (∀ (chars offs : List Nat) (rest : List Col) (k w v : Nat) (vs : List Nat),
          FunctionStringHashFixedString.executeImpl F true
              ((Col.strC chars offs :: rest) ++ [.constC k (.vec w (v :: vs))])
            = .ok (fixedStrRows F (v % 2 ^ 32) chars 0 offs)) := by
  refine ⟨?_, ?_, ?_, ?_⟩
  · intro args rows ty col hc
    simp only [executeImpl]
    rw [List.getLast?_concat]
    cases col with
    | constC n d => simp [Col.isConst] at hc
    | vec w vals => rfl
    | strC chars offsets => rfl
    | fstrC n chars => rfl
    | arrC offsets data => rfl
    | tupC cols => rfl
  · intro args rows k w v vs ty
    simp only [executeImpl]
    rw [List.getLast?_concat]
    simp only [if_true, okBind, List.length_append, List.length_cons, List.length_nil,
      Nat.zero_add, Nat.add_zero, Nat.add_sub_cancel, List.take_left]
  · intro args col hc
    simp only [FunctionStringHashFixedString.executeImpl]
    rw [List.getLast?_concat]
    cases col with
    | constC n d => simp [Col.isConst] at hc
    | vec w vals => rfl
    | strC chars offsets => rfl
    | fstrC n chars => rfl
    | arrC offsets data => rfl
    | tupC cols => rfl
  · intro chars offs rest k w v vs
    simp only [FunctionStringHashFixedString.executeImpl]
    rw [List.getLast?_concat]
    simp only [if_true, okBind, List.cons_append, List.head?]

/-- Witness for C8: a dense (non-constant) trailing seed column fails
with LOGICAL_ERROR on both drivers; a constant one is read modulo
`2 ^ 32` and drives the call. -/
theorem claim8_witness :
    Col.isConst (Col.vec 4 [1, 2]) = false
      ∧ executeImpl witE witP true
            ([(Ty.int 1, Col.vec 1 [7, 8])] ++ [(Ty.int 4, Col.vec 4 [1, 2])]) 2
          = .error .logicalError
      ∧ executeImpl witE witP true
            ([(Ty.int 1, Col.vec 1 [7, 8])]
              ++ [(Ty.int 4, Col.constC 2 (Col.vec 4 [9]))]) 2
          = runArguments witE witP (9 % 2 ^ 32) [(Ty.int 1, Col.vec 1 [7, 8])]
              (List.replicate 2 0) true
      ∧ FunctionStringHashFixedString.executeImpl ⟨2, fun bs sd => [bs.length, sd]⟩ true
            ([Col.strC [97, 0] [2]] ++ [Col.vec 4 [1, 2]])
          = .error .logicalError :=
  ⟨rfl,
    (claim8_seed_constant witE witP ⟨2, fun bs sd => [bs.length, sd]⟩).1
      [(Ty.int 1, Col.vec 1 [7, 8])] 2 (Ty.int 4) (Col.vec 4 [1, 2]) rfl,
    by
      rw [(claim8_seed_constant witE witP ⟨2, fun bs sd => [bs.length, sd]⟩).2.1
        [(Ty.int 1, Col.vec 1 [7, 8])] 2 2 4 9 [] (Ty.int 4)]
      rfl,
    (claim8_seed_constant witE witP ⟨2, fun bs sd => [bs.length, sd]⟩).2.2.1
      [Col.strC [97, 0] [2]] (Col.vec 4 [1, 2]) rfl⟩
